import Mathlib

/-!
Verification development for the mojofix repository: a FIX tag-value codec
(message builder plus streaming parser) together with two auxiliary Python
tools (a knowledge-base packer/verifier pair and a benchmark driver).

The codec itself (`mojofix.message.FixMessage`, `mojofix.parser.FixParser`)
is exercised by the repository's tests and benchmarks; its wire-format
behaviour is modelled here from the specification (spec.md sections 4.1,
4.2, 6 and 7).  Bytes are modelled as natural numbers (ASCII codes), byte
streams as `List Nat`, and fallible parsing steps return `Option` or an
explicit result type.
-/

set_option maxHeartbeats 1000000
set_option maxRecDepth 16384

/-! ## Decimal digit strings -/

/-- Fuel-indexed helper for decimal formatting; `fuel` bounds recursion depth
so the definition is structural and kernel-reducible. -/
def natDigitsAux : Nat → Nat → List Nat
  | 0, _ => []
  | fuel + 1, n => if n < 10 then [48 + n] else natDigitsAux fuel (n / 10) ++ [48 + n % 10]

/-- Modelled from the spec: ASCII decimal representation of a natural number
(most significant digit first), as used for tags, BodyLength and field
values in the wire format (spec.md section 6). -/
def natDigits (n : Nat) : List Nat :=
  natDigitsAux (n + 1) n

/-- One byte is an ASCII decimal digit. -/
def isDigit (b : Nat) : Bool := 48 ≤ b && b ≤ 57

/-- Accumulator-style decimal parser over ASCII digit bytes. -/
def parseDigitsFrom (acc : Nat) : List Nat → Option Nat
  | [] => some acc
  | b :: rest => if isDigit b then parseDigitsFrom (acc * 10 + (b - 48)) rest else none

/-- Modelled from the spec: parse a non-empty ASCII decimal digit string;
`none` on the empty string or any non-digit byte (a non-numeric BodyLength
is malformed, spec.md section 7). -/
def parseDigits (l : List Nat) : Option Nat :=
  if l.isEmpty then none else parseDigitsFrom 0 l

/-! ## Byte-list utilities -/

/-- Does the byte `x` occur in the list? -/
def hasByte (x : Nat) : List Nat → Bool
  | [] => false
  | b :: r => b == x || hasByte x r

/-- Split a byte list at the first SOH (0x01) delimiter: the bytes before it
and the bytes after it. -/
def splitSOH : List Nat → Option (List Nat × List Nat)
  | [] => none
  | b :: rest =>
    if b == 1 then some ([], rest)
    else
      match splitSOH rest with
      | none => none
      | some (v, r) => some (b :: v, r)

/-- Split a byte list at the first `=` (0x3D): tag bytes and value bytes. -/
def splitEq : List Nat → Option (List Nat × List Nat)
  | [] => none
  | b :: rest =>
    if b == 61 then some ([], rest)
    else
      match splitEq rest with
      | none => none
      | some (t, v) => some (b :: t, v)

/-- Cut a byte stream that must consist of SOH-terminated chunks into the
list of chunks; `none` when the final chunk is not SOH-terminated. -/
def chunksOf : List Nat → Option (List (List Nat))
  | [] => some []
  | b :: rest =>
    if b == 1 then
      match chunksOf rest with
      | none => none
      | some cs => some ([] :: cs)
    else
      match chunksOf rest with
      | none => none
      | some [] => none
      | some (c :: cs) => some ((b :: c) :: cs)

/-- Take exactly `n` bytes off the front of a list, returning them and the
remainder; `none` when fewer than `n` bytes are available. -/
def takeDrop (n : Nat) (l : List Nat) : Option (List Nat × List Nat) :=
  match n, l with
  | 0, l => some ([], l)
  | _ + 1, [] => none
  | k + 1, b :: t =>
    match takeDrop k t with
    | none => none
    | some (x, y) => some (b :: x, y)

/-! ## Message data model (spec.md section 3, 4.1) -/

/-- Modelled from the spec: a FIX message is an ordered, mutable sequence of
(tag, value) fields; tags are unsigned integers, values byte sequences,
insertion order preserved exactly (spec.md section 3). -/
structure FixMessage where
  pairs : List (Nat × List Nat)
deriving DecidableEq, Repr

/-- Modelled from the spec: `append_pair(tag, value)` appends a field to the
ordered sequence, with no validation (spec.md section 4.1). -/
def FixMessage.append_pair (m : FixMessage) (tag : Nat) (value : List Nat) : FixMessage :=
  ⟨m.pairs ++ [(tag, value)]⟩

/-- Build a message from a list of (tag, value) pairs by successive
`append_pair` calls. -/
def buildMessage (l : List (Nat × List Nat)) : FixMessage :=
  l.foldl (fun m f => m.append_pair f.1 f.2) ⟨[]⟩

/-- Positions (0-based, counting from `i`) of the fields carrying tag `t`:
the lazily built tag → positions index of spec.md section 3. -/
def tagPositionsFrom (i : Nat) (t : Nat) : List (Nat × List Nat) → List Nat
  | [] => []
  | f :: rest =>
    if f.1 == t then i :: tagPositionsFrom (i + 1) t rest
    else tagPositionsFrom (i + 1) t rest

/-- Field at position `i` of the pair list. -/
def nthPair : List (Nat × List Nat) → Nat → Option (Nat × List Nat)
  | [], _ => none
  | f :: _, 0 => some f
  | _ :: rest, i + 1 => nthPair rest i

/-- Modelled from the spec: `get(tag)` returns the value of the first field
with the given tag (via the position index), or an absent result when the
tag does not occur (spec.md sections 3 and 4.1). -/
def FixMessage.get (m : FixMessage) (t : Nat) : Option (List Nat) :=
  match tagPositionsFrom 0 t m.pairs with
  | [] => none
  | i :: _ => (nthPair m.pairs i).map (fun f => f.2)

/-- Modelled from the spec: `count(tag)`, the number of occurrences of a tag
(spec.md section 4.1). -/
def FixMessage.count (m : FixMessage) (t : Nat) : Nat :=
  (tagPositionsFrom 0 t m.pairs).length

/-! ## Encoding (spec.md section 4.1 algorithm, section 6 wire format) -/

/-- Serialize one field as `tag=value` followed by the SOH delimiter. -/
def encodeField (f : Nat × List Nat) : List Nat :=
  natDigits f.1 ++ 61 :: (f.2 ++ [1])

/-- Serialize a list of fields in order (spec.md section 4.1 step 1). -/
def encodeBody : List (Nat × List Nat) → List Nat
  | [] => []
  | f :: rest => encodeField f ++ encodeBody rest

/-- Body fields of a message: every field except tags 8, 9 and 10, in
insertion order (spec.md section 4.1 step 1). -/
def bodyFields (m : FixMessage) : List (Nat × List Nat) :=
  m.pairs.filter (fun f => f.1 != 8 && f.1 != 9 && f.1 != 10)

/-- Value of the first tag-8 field, empty when absent (encode proceeds even
without a BeginString, spec.md section 4.1 edge cases). -/
def beginString (m : FixMessage) : List Nat :=
  match m.pairs.find? (fun f => f.1 == 8) with
  | some f => f.2
  | none => []

/-- CheckSum formatting: exactly three zero-padded ASCII decimal digits
(spec.md section 6). -/
def checksum3 (v : Nat) : List Nat :=
  [48 + v / 100, 48 + v / 10 % 10, 48 + v % 10]

/-- Modelled from the spec: the checksummed span of an encoded message —
`8=<BeginString>` SOH `9=<BodyLength>` SOH followed by the serialized body
fields, i.e. everything from the first byte of tag 8's field through the
SOH after the last body field (spec.md section 4.1 steps 1-3). -/
def encodeFront (m : FixMessage) : List Nat :=
  let body := encodeBody (bodyFields m)
  56 :: 61 :: (beginString m ++ 1 :: 57 :: 61 :: (natDigits body.length ++ 1 :: body))

/-- Modelled from the spec: the checksum value of a message at encode time —
the sum of all byte values of the checksummed span, modulo 256 (spec.md
section 4.1 step 4, section 6). -/
def checkValue (m : FixMessage) : Nat :=
  (encodeFront m).sum % 256

/-- Modelled from the spec: `encode()` — serialize body fields in order,
prepend `8=` and `9=<BodyLength>` headers, append the `10=<CheckSum>`
trailer computed over everything so far (spec.md section 4.1 steps 1-5). -/
def FixMessage.encode (m : FixMessage) : List Nat :=
  encodeFront m ++ 49 :: 48 :: 61 :: (checksum3 (checkValue m) ++ [1])

/-! ## Parser (spec.md section 4.2, 7) -/

/-- Result of `get_message`: no complete message buffered yet, malformed
structure, or a parsed message together with the unconsumed trailing bytes
(spec.md sections 4.2 and 7). -/
inductive GetResult where
  | incomplete
  | malformed
  | msg (m : FixMessage) (rest : List Nat)
deriving DecidableEq, Repr

/-- Parse one `tag=value` chunk (without its SOH) into a field. -/
def parseField (c : List Nat) : Option (Nat × List Nat) :=
  match splitEq c with
  | none => none
  | some (tb, v) =>
    match parseDigits tb with
    | none => none
    | some t => some (t, v)

/-- Parse a list of chunks into fields; `none` if any chunk is malformed. -/
def parseChunks : List (List Nat) → Option (List (Nat × List Nat))
  | [] => some []
  | c :: cs =>
    match parseField c, parseChunks cs with
    | some f, some fs => some (f :: fs)
    | _, _ => none

/-- Parse a body byte span (a sequence of SOH-terminated `tag=value`
fields) into its field list. -/
def parseFields (body : List Nat) : Option (List (Nat × List Nat)) :=
  match chunksOf body with
  | none => none
  | some cs => parseChunks cs

/-- Parser stage after BeginString and BodyLength have been read: consume
`n` declared body bytes, then the `10=ccc` SOH trailer; insufficient bytes
are `incomplete`, a bad trailer or unparsable body is `malformed`
(spec.md section 4.2). -/
def afterLength (v8 bl : List Nat) (n : Nat) (rest : List Nat) : GetResult :=
  match takeDrop n rest with
  | none => .incomplete
  | some (body, rest5) =>
    match rest5 with
    | [] | [_] | [_, _] | [_, _, _] | [_, _, _, _] | [_, _, _, _, _]
    | [_, _, _, _, _, _] => .incomplete
    | c1 :: c2 :: c3 :: d1 :: d2 :: d3 :: s :: leftover =>
      if c1 == 49 && c2 == 48 && c3 == 61 && s == 1 &&
          isDigit d1 && isDigit d2 && isDigit d3 then
        match parseFields body with
        | none => .malformed
        | some fs => .msg ⟨(8, v8) :: (9, bl) :: (fs ++ [(10, [d1, d2, d3])])⟩ leftover
      else .malformed

/-- Parser stage after the BeginString field: expect `9=<digits>` SOH; a
non-numeric BodyLength is malformed (spec.md sections 4.2 and 7). -/
def afterBegin (v8 : List Nat) (rest : List Nat) : GetResult :=
  match rest with
  | [] => .incomplete
  | [b] => if b == 57 then .incomplete else .malformed
  | b1 :: b2 :: rest3 =>
    if b1 == 57 && b2 == 61 then
      match splitSOH rest3 with
      | none => .incomplete
      | some (bl, rest4) =>
        match parseDigits bl with
        | none => .malformed
        | some n => afterLength v8 bl n rest4
    else .malformed

/-- Modelled from the spec: `get_message()` — extract one structurally
complete message (`8=` SOH `9=` SOH body `10=ccc` SOH) from the front of
the buffer, returning the parsed message and the retained trailing bytes,
`incomplete` when more bytes are needed, or `malformed` on structural
errors (spec.md sections 4.2 and 7).  Raw-data length-declared fields
(spec.md section 6) are outside this model: the spec names no concrete
length-tag set. -/
def getMessage (buf : List Nat) : GetResult :=
  match buf with
  | [] => .incomplete
  | [b] => if b == 56 then .incomplete else .malformed
  | b1 :: b2 :: rest1 =>
    if b1 == 56 && b2 == 61 then
      match splitSOH rest1 with
      | none => .incomplete
      | some (v8, rest2) => afterBegin v8 rest2
    else .malformed

/-- Modelled from the spec: `append_buffer` appends raw bytes to the
internal accumulation buffer without eager parsing (spec.md section 4.2). -/
def appendBuffer (buf bytes : List Nat) : List Nat := buf ++ bytes

/-- A fresh parser's empty buffer. -/
def emptyBuffer : List Nat := []

/-- Modelled from the spec: `reset()` discards all buffered bytes and
returns the state machine to its initial state (spec.md section 4.2). -/
def resetParser (_buf : List Nat) : List Nat := []

/-- Repeatedly call `get_message`, collecting up to `k` parsed messages and
the buffer that remains after the last successful call. -/
def drainAll : Nat → List Nat → List FixMessage × List Nat
  | 0, buf => ([], buf)
  | k + 1, buf =>
    match getMessage buf with
    | .msg m rest =>
      match drainAll k rest with
      | (ms, fin) => (m :: ms, fin)
    | _ => ([], buf)

/-! ## Validity of built messages and the predicted decode -/

/-- A valid body field: not one of the structural tags 8/9/10 and a value
free of the SOH delimiter. -/
def validPairB (f : Nat × List Nat) : Bool :=
  f.1 != 8 && f.1 != 9 && f.1 != 10 && !(hasByte 1 f.2)

/-- A message built from valid (tag, value) pairs: the BeginString field
(tag 8) first, followed by body fields only, all values SOH-free. -/
def validMsgB (m : FixMessage) : Bool :=
  match m.pairs with
  | [] => false
  | (t, v) :: rest => t == 8 && !(hasByte 1 v) && rest.all validPairB

/-- The message a fresh parser recovers from `m.encode`: the BeginString,
the recomputed BodyLength and CheckSum fields (with the values computed at
encode time), and the body fields in insertion order. -/
def decodeOf (m : FixMessage) : FixMessage :=
  ⟨(8, beginString m) ::
    (9, natDigits (encodeBody (bodyFields m)).length) ::
    (bodyFields m ++ [(10, checksum3 (checkValue m))])⟩

/-! ## Concrete messages from the repository's benchmarks and tests -/

/-- The short benchmark message built by `generate_short` in
src/benchmarks/bench_simplefix.py: fields 8=FIX.4.2, 35=0, 49=SENDER,
56=TARGET, 34=1, 52=20250101-12:00:00.000, values as ASCII byte lists. -/
def mShort : FixMessage := buildMessage
  [(8, [70, 73, 88, 46, 52, 46, 50]),
   (35, [48]),
   (49, [83, 69, 78, 68, 69, 82]),
   (56, [84, 65, 82, 71, 69, 84]),
   (34, [49]),
   (52, [50, 48, 50, 53, 48, 49, 48, 49, 45, 49, 50, 58, 48, 48, 58, 48, 48, 46, 48, 48, 48])]

/-- The heartbeat message of the cross-validation parsing test
(src/test/test_cross_validation.py): fields 8=FIX.4.2, 35=0. -/
def mHeartbeat : FixMessage := buildMessage
  [(8, [70, 73, 88, 46, 52, 46, 50]), (35, [48])]

/-- The malformed buffer of spec.md section 8: ASCII `8=FIX.4.2` SOH
`9=abc` SOH — a non-numeric BodyLength. -/
def badInput : List Nat :=
  [56, 61, 70, 73, 88, 46, 52, 46, 50, 1, 57, 61, 97, 98, 99, 1]

/-- A message (8=F, 35=<0xF2>) whose checksummed byte sum is ≡ 0 mod 256:
the checksum wrap-around case at 0. -/
def mWrapZero : FixMessage := buildMessage [(8, [70]), (35, [242])]

/-- A message (8=F, 35=<0xF1>) whose checksummed byte sum is ≡ 255 mod 256:
the checksum wrap-around case at 255. -/
def mWrapMax : FixMessage := buildMessage [(8, [70]), (35, [241])]

/-- Byte-by-byte partition of a stream into singleton chunks, the finest
network fragmentation of spec.md section 8. -/
def singletonChunks (l : List Nat) : List (List Nat) := l.map (fun b => [b])

/-! ## Knowledge-base tools (src/tools/create_kb.py, src/tools/verify_kb.py) -/

/-- A directory tree entry as traversed by `os.walk`: a named file or a
named directory with children. -/
inductive FSEntry where
  | file (name : String)
  | dir (name : String) (children : List FSEntry)

/-- `IGNORE_DIRS` of src/tools/create_kb.py. -/
def createIgnoreDirs : List String :=
  ["scripts", "lit", "__pycache__", "build", ".git", ".github", "benchmarks", "test"]

/-- `INCLUDE_EXTS` of src/tools/create_kb.py. -/
def createIncludeExts : List String := [".mojo", ".d.mojo"]

/-- `IGNORE_DIRS` of src/tools/verify_kb.py. -/
def verifyIgnoreDirs : List String :=
  ["scripts", "lit", "__pycache__", "build", ".git", ".github", "benchmarks", "test"]

/-- `INCLUDE_EXTS` of src/tools/verify_kb.py. -/
def verifyIncludeExts : List String := [".mojo", ".d.mojo"]

/-- `any(file.endswith(ext) for ext in INCLUDE_EXTS)` in create_kb.py. -/
def createHasExt (name : String) : Bool :=
  createIncludeExts.any (fun e => name.endsWith e)

/-- `any(file.endswith(ext) for ext in INCLUDE_EXTS)` in verify_kb.py. -/
def verifyHasExt (name : String) : Bool :=
  verifyIncludeExts.any (fun e => name.endsWith e)

/-- The `os.walk` traversal of create_knowledge_base (create_kb.py lines
36-46): visit files of each directory, pruning directories named in
`IGNORE_DIRS` via the in-place `dirs[:]` filter; yields (directory-prefix
components, file name) pairs relative to the walk root. -/
def walkCreate (pre : List String) : List FSEntry → List (List String × String)
  | [] => []
  | .file n :: rest => (pre, n) :: walkCreate pre rest
  | .dir d cs :: rest =>
    (if createIgnoreDirs.contains d then [] else walkCreate (pre ++ [d]) cs) ++
      walkCreate pre rest

/-- The `os.walk` traversal of get_repo_files (verify_kb.py lines 14-21),
identical pruning. -/
def walkVerify (pre : List String) : List FSEntry → List (List String × String)
  | [] => []
  | .file n :: rest => (pre, n) :: walkVerify pre rest
  | .dir d cs :: rest =>
    (if verifyIgnoreDirs.contains d then [] else walkVerify (pre ++ [d]) cs) ++
      walkVerify pre rest

/-- Relative paths (component lists) that create_knowledge_base packs into
the XML (create_kb.py lines 36-54): walked files whose name carries an
included extension and whose relative path has no component in
`IGNORE_DIRS`. -/
def createPackedFiles (tree : List FSEntry) : List (List String) :=
  (walkCreate [] tree).filterMap (fun pn =>
    if createHasExt pn.2 &&
        !((pn.1 ++ [pn.2]).any (fun part => createIgnoreDirs.contains part)) then
      some (pn.1 ++ [pn.2])
    else none)

/-- Relative paths collected by get_repo_files (verify_kb.py lines 12-28),
with the same extension filter and the re-applied component check. -/
def verifyRepoFiles (tree : List FSEntry) : List (List String) :=
  (walkVerify [] tree).filterMap (fun pn =>
    if verifyHasExt pn.2 &&
        !((pn.1 ++ [pn.2]).any (fun part => verifyIgnoreDirs.contains part)) then
      some (pn.1 ++ [pn.2])
    else none)

/-- Set difference on path lists, as the `-` of Python sets used by
verify_kb.py's `verify()` for missing/extra computation. -/
def setDiff (a b : List (List String)) : List (List String) :=
  a.filter (fun x => !(b.contains x))

/-! ## Benchmark rate computations (src/benchmarks/bench_simplefix.py)

Real-valued durations are modelled as exact rationals; the `duration == 0`
guard compares exactly, as the Python float comparison does.  Python
division raises `ZeroDivisionError` on a zero divisor, so division is
modelled as an `Option`. -/

/-- Python division: `none` models `ZeroDivisionError`. -/
def pyDiv (a b : ℚ) : Option ℚ :=
  if b = 0 then none else some (a / b)

/-- The rate computations of run_parser_benchmark (bench_simplefix.py lines
94-98): replace a zero duration by 0.000001, then compute
`msg_sec = iterations / duration` and
`latency_us = (duration / iterations) * 1_000_000`. -/
def parserBenchStats (iterations : Nat) (duration : ℚ) : Option (ℚ × ℚ) :=
  let d := if duration = 0 then 1 / 1000000 else duration
  match pyDiv (iterations : ℚ) d, pyDiv d (iterations : ℚ) with
  | some msgSec, some perIter => some (msgSec, perIter * 1000000)
  | _, _ => none

/-- The rate computations of run_builder_benchmark (bench_simplefix.py
lines 140-144), textually identical to the parser benchmark's. -/
def builderBenchStats (iterations : Nat) (duration : ℚ) : Option (ℚ × ℚ) :=
  let d := if duration = 0 then 1 / 1000000 else duration
  match pyDiv (iterations : ℚ) d, pyDiv d (iterations : ℚ) with
  | some msgSec, some perIter => some (msgSec, perIter * 1000000)
  | _, _ => none

/-! ## Helper lemmas: decimal digits -/

theorem natDigitsAux_eq_of_lt :
    ∀ f1 f2 n, n < f1 → n < f2 → natDigitsAux f1 n = natDigitsAux f2 n := by
  intro f1
  induction f1 with
  | zero => intro f2 n h1; omega
  | succ k1 ih =>
    intro f2 n h1 h2
    cases f2 with
    | zero => omega
    | succ k2 =>
      simp only [natDigitsAux]
      by_cases h : n < 10
      · simp [h]
      · have hd : n / 10 < n := Nat.div_lt_self (by omega) (by omega)
        simp only [if_neg h]
        rw [ih k2 (n / 10) (by omega) (by omega)]

theorem natDigits_eq (n : Nat) :
    natDigits n = if n < 10 then [48 + n] else natDigits (n / 10) ++ [48 + n % 10] := by
  have h0 : natDigits n =
      if n < 10 then [48 + n] else natDigitsAux n (n / 10) ++ [48 + n % 10] := rfl
  rw [h0]
  by_cases h : n < 10
  · simp [h]
  · have hd : n / 10 < n := Nat.div_lt_self (by omega) (by omega)
    rw [if_neg h, if_neg h,
      natDigitsAux_eq_of_lt n (n / 10 + 1) (n / 10) (by omega) (by omega)]
    rfl

theorem natDigits_mem_bounds (n : Nat) : ∀ b ∈ natDigits n, 48 ≤ b ∧ b ≤ 57 := by
  induction n using Nat.strong_induction_on with
  | _ n ih =>
    rw [natDigits_eq]
    by_cases h : n < 10
    · simp [h]; omega
    · have hd : n / 10 < n := Nat.div_lt_self (by omega) (by omega)
      have hm : n % 10 < 10 := Nat.mod_lt _ (by omega)
      simp only [if_neg h]
      intro b hb
      rcases List.mem_append.mp hb with hb1 | hb2
      · exact ih (n / 10) hd b hb1
      · simp at hb2; omega

theorem natDigits_ne_nil (n : Nat) : natDigits n ≠ [] := by
  rw [natDigits_eq]
  by_cases h : n < 10 <;> simp [h]

theorem parseDigitsFrom_natDigits (n : Nat) :
    ∀ acc l, parseDigitsFrom acc (natDigits n ++ l) =
      parseDigitsFrom (acc * 10 ^ (natDigits n).length + n) l := by
  induction n using Nat.strong_induction_on with
  | _ n ih =>
    intro acc l
    by_cases h : n < 10
    · rw [natDigits_eq, if_pos h]
      have hdig : isDigit (48 + n) = true := by simp [isDigit]; omega
      simp [parseDigitsFrom, hdig]
    · have hd : n / 10 < n := Nat.div_lt_self (by omega) (by omega)
      rw [natDigits_eq, if_neg h]
      rw [List.append_assoc, List.singleton_append, ih (n / 10) hd]
      have hdig : isDigit (48 + n % 10) = true := by
        have hm : n % 10 < 10 := Nat.mod_lt _ (by omega)
        simp [isDigit]; omega
      simp only [parseDigitsFrom, hdig, if_true, List.length_append, List.length_cons,
        List.length_nil]
      congr 1
      have h48 : 48 + n % 10 - 48 = n % 10 := by omega
      rw [h48, Nat.zero_add, pow_succ]
      have hmod : n / 10 * 10 + n % 10 = n := by omega
      calc (acc * 10 ^ (natDigits (n / 10)).length + n / 10) * 10 + n % 10
          = acc * (10 ^ (natDigits (n / 10)).length * 10) + (n / 10 * 10 + n % 10) := by ring
        _ = acc * (10 ^ (natDigits (n / 10)).length * 10) + n := by rw [hmod]

theorem parseDigits_natDigits (n : Nat) : parseDigits (natDigits n) = some n := by
  have hne : (natDigits n).isEmpty = false := by
    cases hh : natDigits n with
    | nil => exact absurd hh (natDigits_ne_nil n)
    | cons a t => simp
  rw [parseDigits, if_neg (by simp [hne])]
  have := parseDigitsFrom_natDigits n 0 []
  rw [List.append_nil] at this
  rw [this]
  simp [parseDigitsFrom]

/-! ## Helper lemmas: byte scanning -/

theorem hasByte_append (x : Nat) (a b : List Nat) :
    hasByte x (a ++ b) = (hasByte x a || hasByte x b) := by
  induction a with
  | nil => simp [hasByte]
  | cons c t ih => simp [hasByte, ih, Bool.or_assoc]

theorem hasByte_eq_false_of_bounds (x : Nat) (l : List Nat)
    (h : ∀ b ∈ l, 48 ≤ b ∧ b ≤ 57) (hx : x < 48 ∨ 57 < x) : hasByte x l = false := by
  induction l with
  | nil => rfl
  | cons b t ih =>
    have hb := h b (by simp)
    simp only [hasByte, Bool.or_eq_false_iff]
    constructor
    · simp; omega
    · exact ih (fun c hc => h c (by simp [hc]))

theorem natDigits_hasByte_one (n : Nat) : hasByte 1 (natDigits n) = false :=
  hasByte_eq_false_of_bounds 1 _ (natDigits_mem_bounds n) (by omega)

theorem natDigits_hasByte_eq (n : Nat) : hasByte 61 (natDigits n) = false :=
  hasByte_eq_false_of_bounds 61 _ (natDigits_mem_bounds n) (by omega)

theorem splitSOH_append (v : List Nat) (h : hasByte 1 v = false) :
    ∀ r, splitSOH (v ++ 1 :: r) = some (v, r) := by
  induction v with
  | nil => intro r; simp [splitSOH]
  | cons b t ih =>
    intro r
    simp only [hasByte, Bool.or_eq_false_iff] at h
    have hb : (b == 1) = false := h.1
    simp only [List.cons_append, splitSOH, hb, Bool.false_eq_true, if_false,
      List.append_eq, ih h.2 r]

theorem splitEq_append (t : List Nat) (h : hasByte 61 t = false) :
    ∀ v, splitEq (t ++ 61 :: v) = some (t, v) := by
  induction t with
  | nil => intro v; simp [splitEq]
  | cons b u ih =>
    intro v
    simp only [hasByte, Bool.or_eq_false_iff] at h
    have hb : (b == 61) = false := h.1
    simp only [List.cons_append, splitEq, hb, Bool.false_eq_true, if_false,
      List.append_eq, ih h.2 v]

theorem chunksOf_append (v : List Nat) (h : hasByte 1 v = false) :
    ∀ r, chunksOf (v ++ 1 :: r) = (chunksOf r).map (fun cs => v :: cs) := by
  induction v with
  | nil =>
    intro r
    simp only [List.nil_append, chunksOf]
    cases chunksOf r <;> simp
  | cons b t ih =>
    intro r
    simp only [hasByte, Bool.or_eq_false_iff] at h
    have hb : (b == 1) = false := h.1
    have hih := ih h.2 r
    simp only [List.cons_append, chunksOf, hb, Bool.false_eq_true, if_false,
      List.append_eq, hih]
    cases chunksOf r <;> simp

theorem takeDrop_append (l : List Nat) : ∀ r, takeDrop l.length (l ++ r) = some (l, r) := by
  induction l with
  | nil => intro r; simp [takeDrop]
  | cons b t ih => intro r; simp [takeDrop, ih r]

/-! ## Helper lemmas: field and body parsing -/

theorem parseField_chunk (f : Nat × List Nat) :
    parseField (natDigits f.1 ++ 61 :: f.2) = some f := by
  simp only [parseField, splitEq_append (natDigits f.1) (natDigits_hasByte_eq f.1) f.2,
    parseDigits_natDigits]

theorem chunksOf_encodeBody (fs : List (Nat × List Nat))
    (h : ∀ f ∈ fs, hasByte 1 f.2 = false) :
    chunksOf (encodeBody fs) = some (fs.map (fun f => natDigits f.1 ++ 61 :: f.2)) := by
  induction fs with
  | nil => rfl
  | cons f rest ih =>
    have hf : hasByte 1 (natDigits f.1 ++ 61 :: f.2) = false := by
      rw [hasByte_append]
      simp [natDigits_hasByte_one, hasByte, h f (by simp)]
    have hshape : encodeBody (f :: rest) =
        (natDigits f.1 ++ 61 :: f.2) ++ 1 :: encodeBody rest := by
      simp [encodeBody, encodeField]
    rw [hshape, chunksOf_append _ hf, ih (fun g hg => h g (by simp [hg]))]
    rfl

theorem parseChunks_map (fs : List (Nat × List Nat)) :
    parseChunks (fs.map (fun f => natDigits f.1 ++ 61 :: f.2)) = some fs := by
  induction fs with
  | nil => rfl
  | cons f rest ih => simp [parseChunks, parseField_chunk, ih]

theorem parseFields_encodeBody (fs : List (Nat × List Nat))
    (h : ∀ f ∈ fs, hasByte 1 f.2 = false) :
    parseFields (encodeBody fs) = some fs := by
  simp only [parseFields, chunksOf_encodeBody fs h, parseChunks_map]

/-! ## Helper lemmas: checksum formatting -/

theorem checksum3_length (v : Nat) : (checksum3 v).length = 3 := rfl

theorem checksum3_digits (v : Nat) (h : v < 256) :
    ∀ b ∈ checksum3 v, 48 ≤ b ∧ b ≤ 57 := by
  intro b hb
  simp only [checksum3, List.mem_cons, List.mem_singleton, List.not_mem_nil] at hb
  rcases hb with h1 | h1 | h1 | h1 <;> first | omega | simp at h1

theorem parseDigits_checksum3 (v : Nat) (h : v < 256) :
    parseDigits (checksum3 v) = some v := by
  have h1 : isDigit (48 + v / 100) = true := by simp [isDigit]; omega
  have h2 : isDigit (48 + v / 10 % 10) = true := by simp [isDigit]; omega
  have h3 : isDigit (48 + v % 10) = true := by simp [isDigit]; omega
  simp only [checksum3, parseDigits, List.isEmpty_cons, Bool.false_eq_true, if_false,
    parseDigitsFrom, h1, h2, h3, if_true]
  congr 1
  omega

/-! ## Helper lemmas: validity and message shape -/

theorem validPairB_iff (f : Nat × List Nat) :
    validPairB f = true ↔ f.1 ≠ 8 ∧ f.1 ≠ 9 ∧ f.1 ≠ 10 ∧ hasByte 1 f.2 = false := by
  simp [validPairB, Bool.and_eq_true, bne_iff_ne, Bool.not_eq_true', and_assoc]

theorem validMsgB_destruct (m : FixMessage) (h : validMsgB m = true) :
    ∃ v tl, m.pairs = (8, v) :: tl ∧ hasByte 1 v = false ∧ ∀ f ∈ tl, validPairB f = true := by
  obtain ⟨pairs⟩ := m
  cases pairs with
  | nil => simp [validMsgB] at h
  | cons hd tl =>
    obtain ⟨t, v⟩ := hd
    simp only [validMsgB, Bool.and_eq_true, beq_iff_eq, Bool.not_eq_true',
      List.all_eq_true] at h
    obtain ⟨⟨ht, hv⟩, hall⟩ := h
    subst ht
    exact ⟨v, tl, rfl, hv, hall⟩

theorem beginString_of_pairs (m : FixMessage) (v : List Nat) (tl : List (Nat × List Nat))
    (hp : m.pairs = (8, v) :: tl) : beginString m = v := by
  simp [beginString, hp, List.find?]

theorem bodyFields_of_pairs (m : FixMessage) (v : List Nat) (tl : List (Nat × List Nat))
    (hp : m.pairs = (8, v) :: tl)
    (h : ∀ f ∈ tl, f.1 ≠ 8 ∧ f.1 ≠ 9 ∧ f.1 ≠ 10) :
    bodyFields m = tl := by
  simp only [bodyFields, hp, List.filter_cons]
  simp only [show ((8 : Nat) != 8 && (8 : Nat) != 9 && (8 : Nat) != 10) = false from rfl,
    Bool.false_eq_true, if_false]
  rw [List.filter_eq_self]
  intro f hf
  have hh := h f hf
  simp only [Bool.and_eq_true, bne_iff_ne]
  tauto

/-! ## Parser stepping lemmas -/

theorem getMessage_step (v Z : List Nat) (hv : hasByte 1 v = false) :
    getMessage (56 :: 61 :: (v ++ 1 :: Z)) = afterBegin v Z := by
  simp [getMessage, splitSOH_append v hv]

theorem afterBegin_digits (v W : List Nat) (L : Nat) :
    afterBegin v (57 :: 61 :: (natDigits L ++ 1 :: W)) = afterLength v (natDigits L) L W := by
  simp [afterBegin, splitSOH_append _ (natDigits_hasByte_one L), parseDigits_natDigits]

theorem afterLength_full (v bl : List Nat) (body : List Nat) (C : Nat) (hC : C < 256)
    (fs : List (Nat × List Nat)) (hpf : parseFields body = some fs) (rest : List Nat) :
    afterLength v bl body.length
      (body ++ 49 :: 48 :: 61 :: ((48 + C / 100) :: (48 + C / 10 % 10) ::
        (48 + C % 10) :: 1 :: rest)) =
    GetResult.msg ⟨(8, v) :: (9, bl) ::
      (fs ++ [(10, [48 + C / 100, 48 + C / 10 % 10, 48 + C % 10])])⟩ rest := by
  have hd1 : isDigit (48 + C / 100) = true := by simp [isDigit]; omega
  have hd2 : isDigit (48 + C / 10 % 10) = true := by simp [isDigit]; omega
  have hd3 : isDigit (48 + C % 10) = true := by simp [isDigit]; omega
  simp only [afterLength, takeDrop_append, hpf, hd1, hd2, hd3]
  simp

/-! ## The central round-trip lemma -/

theorem getMessage_encode_append (m : FixMessage) (h : validMsgB m = true)
    (rest : List Nat) :
    getMessage (m.encode ++ rest) = GetResult.msg (decodeOf m) rest := by
  obtain ⟨v, tl, hp, hv, hall⟩ := validMsgB_destruct m h
  have hall' : ∀ f ∈ tl, f.1 ≠ 8 ∧ f.1 ≠ 9 ∧ f.1 ≠ 10 ∧ hasByte 1 f.2 = false :=
    fun f hf => (validPairB_iff f).mp (hall f hf)
  have hbs : beginString m = v := beginString_of_pairs m v tl hp
  have hbf : bodyFields m = tl :=
    bodyFields_of_pairs m v tl hp
      (fun f hf => ⟨(hall' f hf).1, (hall' f hf).2.1, (hall' f hf).2.2.1⟩)
  have hSOH : ∀ f ∈ tl, hasByte 1 f.2 = false := fun f hf => (hall' f hf).2.2.2
  have hC256 : checkValue m < 256 := by
    unfold checkValue; exact Nat.mod_lt _ (by omega)
  have henc : m.encode ++ rest =
      56 :: 61 :: (v ++ 1 :: (57 :: 61 :: (natDigits (encodeBody tl).length ++ 1 ::
        (encodeBody tl ++ 49 :: 48 :: 61 :: ((48 + checkValue m / 100) ::
          (48 + checkValue m / 10 % 10) :: (48 + checkValue m % 10) :: 1 :: rest))))) := by
    simp [FixMessage.encode, encodeFront, hbs, hbf, checksum3]
  rw [henc, getMessage_step v _ hv, afterBegin_digits v _ (encodeBody tl).length,
    afterLength_full v (natDigits (encodeBody tl).length) (encodeBody tl)
      (checkValue m) hC256 tl (parseFields_encodeBody tl hSOH) rest]
  simp [decodeOf, hbs, hbf, checksum3]

/-! ## Helper lemmas: tag lookup -/

theorem tagPositionsFrom_shift (t : Nat) :
    ∀ (l : List (Nat × List Nat)) (i : Nat),
      tagPositionsFrom i t l = (tagPositionsFrom 0 t l).map (fun j => j + i) := by
  intro l
  induction l with
  | nil => intro i; rfl
  | cons f rest ih =>
    intro i
    by_cases hf : (f.1 == t) = true
    · simp only [tagPositionsFrom, hf, if_true, List.map_cons, Nat.zero_add]
      rw [ih (i + 1), ih 1, List.map_map]
      exact congrArg (List.cons i)
        (by apply List.map_congr_left; intro a _; simp [Function.comp]; omega)
    · simp only [tagPositionsFrom, hf, Bool.false_eq_true, if_false]
      rw [ih (i + 1), ih 1, List.map_map]
      apply List.map_congr_left
      intro a _
      simp [Function.comp]
      omega

theorem get_eq_find (m : FixMessage) (t : Nat) :
    m.get t = (m.pairs.find? (fun f => f.1 == t)).map (fun f => f.2) := by
  obtain ⟨pairs⟩ := m
  simp only [FixMessage.get]
  induction pairs with
  | nil => rfl
  | cons f rest ih =>
    by_cases hf : (f.1 == t) = true
    · simp [tagPositionsFrom, hf, List.find?_cons_of_pos _ hf, nthPair]
    · have hfind : List.find? (fun f => f.1 == t) (f :: rest) =
          List.find? (fun f => f.1 == t) rest :=
        List.find?_cons_of_neg _ (by simp [hf])
      simp only [tagPositionsFrom, hf, Bool.false_eq_true, if_false, hfind]
      rw [tagPositionsFrom_shift t rest 1]
      cases hP : tagPositionsFrom 0 t rest with
      | nil =>
        simp only [hP, List.map_nil]
        rw [hP] at ih
        exact ih
      | cons j P =>
        simp only [hP, List.map_cons]
        rw [hP] at ih
        simpa [nthPair] using ih

theorem find?_append_of_none {p : Nat × List Nat → Bool} (l1 l2 : List (Nat × List Nat))
    (h : l1.find? p = none) : (l1 ++ l2).find? p = l2.find? p := by
  induction l1 with
  | nil => rfl
  | cons f rest ih =>
    cases hp : p f with
    | true =>
      rw [List.find?_cons_of_pos _ hp] at h
      simp at h
    | false =>
      rw [List.find?_cons_of_neg _ (by simp [hp])] at h
      rw [List.cons_append, List.find?_cons_of_neg _ (by simp [hp])]
      exact ih h

/-! ## Helper lemmas: streaming and multi-message draining -/

theorem foldl_appendBuffer (chunks : List (List Nat)) :
    ∀ acc, List.foldl appendBuffer acc chunks = acc ++ chunks.flatten := by
  induction chunks with
  | nil => intro acc; simp
  | cons c cs ih => intro acc; simp [appendBuffer, ih, List.append_assoc]

theorem drainAll_encode (ms : List FixMessage) (h : ∀ m ∈ ms, validMsgB m = true) :
    drainAll ms.length ((ms.map FixMessage.encode).flatten) = (ms.map decodeOf, []) := by
  induction ms with
  | nil => rfl
  | cons m tl ih =>
    have hjoin : ((m :: tl).map FixMessage.encode).flatten =
        m.encode ++ (tl.map FixMessage.encode).flatten := by simp
    simp only [List.length_cons, hjoin, drainAll,
      getMessage_encode_append m (h m (by simp)) _]
    rw [ih (fun x hx => h x (by simp [hx]))]
    simp

/-! ## Helper lemmas: knowledge-base tool equivalence -/

theorem walk_eq_aux :
    ∀ (k : Nat) (es : List FSEntry) (pre : List String),
      sizeOf es ≤ k → walkCreate pre es = walkVerify pre es := by
  intro k
  induction k with
  | zero =>
    intro es pre h
    exfalso
    cases es <;> simp at h
  | succ k ih =>
    intro es pre h
    cases es with
    | nil => simp only [walkCreate, walkVerify]
    | cons e rest =>
      cases e with
      | file n =>
        simp only [walkCreate, walkVerify]
        rw [ih rest pre (by simp at h; omega)]
      | dir d cs =>
        simp only [walkCreate, walkVerify]
        rw [ih cs (pre ++ [d]) (by simp at h; omega),
          ih rest pre (by simp at h; omega),
          show createIgnoreDirs = verifyIgnoreDirs from rfl]

theorem walkCreate_eq_walkVerify (pre : List String) (es : List FSEntry) :
    walkCreate pre es = walkVerify pre es :=
  walk_eq_aux (sizeOf es) es pre (Nat.le_refl _)

theorem createPackedFiles_eq (t : List FSEntry) :
    createPackedFiles t = verifyRepoFiles t := by
  unfold createPackedFiles verifyRepoFiles
  rw [walkCreate_eq_walkVerify,
    show createHasExt = verifyHasExt from rfl,
    show createIgnoreDirs = verifyIgnoreDirs from rfl]

theorem setDiff_self (l : List (List String)) : setDiff l l = [] := by
  simp only [setDiff]
  induction l with
  | nil => rfl
  | cons x rest ih =>
    simp only [List.filter]
    have hx : ((x :: rest).contains x) = true := by
      simp [List.contains_cons]
    rw [hx]
    simp only [Bool.not_true]
    have hsub : ∀ y ∈ rest, (!(x :: rest).contains y) = false := by
      intro y hy
      simp [List.contains_cons, List.elem_iff, hy]
    calc rest.filter (fun y => !(x :: rest).contains y)
        = rest.filter (fun _ => false) := List.filter_congr hsub
      _ = [] := List.filter_false rest

/-! ## Encoded-stream decomposition -/

theorem encode_fields_decomposition (m : FixMessage) :
    m.encode = encodeField (8, beginString m) ++
      encodeField (9, natDigits (encodeBody (bodyFields m)).length) ++
      encodeBody (bodyFields m) ++ encodeField (10, checksum3 (checkValue m)) := by
  have h8 : natDigits 8 = [56] := by decide
  have h9 : natDigits 9 = [57] := by decide
  have h10 : natDigits 10 = [49, 48] := by decide
  simp [FixMessage.encode, encodeFront, encodeField, h8, h9, h10]

/-! ## Claim theorems -/

/-- C1: for every Message built by appending valid (tag, value) pairs,
parsing the byte stream of `encode()` through a fresh parser's
`append_buffer`/`get_message` yields a Message whose field sequence and
order, excluding the recomputed tag 9 and tag 10 fields, is identical to
the original's, and whose tag 9 and tag 10 fields carry exactly the
BodyLength and CheckSum values computed at encode time. -/
theorem claim_C1 (m : FixMessage) (h : validMsgB m = true) :
    ∃ d, getMessage (appendBuffer emptyBuffer m.encode) = GetResult.msg d [] ∧
      d.pairs.filter (fun f => f.1 != 9 && f.1 != 10) = m.pairs ∧
      d.get 9 = some (natDigits (encodeBody (bodyFields m)).length) ∧
      d.get 10 = some (checksum3 (checkValue m)) := by
  obtain ⟨v, tl, hp, hv, hall⟩ := validMsgB_destruct m h
  have hall' : ∀ f ∈ tl, f.1 ≠ 8 ∧ f.1 ≠ 9 ∧ f.1 ≠ 10 ∧ hasByte 1 f.2 = false :=
    fun f hf => (validPairB_iff f).mp (hall f hf)
  have hbs : beginString m = v := beginString_of_pairs m v tl hp
  have hbf : bodyFields m = tl := bodyFields_of_pairs m v tl hp
    (fun f hf => ⟨(hall' f hf).1, (hall' f hf).2.1, (hall' f hf).2.2.1⟩)
  refine ⟨decodeOf m, ?_, ?_, ?_, ?_⟩
  · have hg := getMessage_encode_append m h []
    rw [List.append_nil] at hg
    simpa [appendBuffer, emptyBuffer] using hg
  · simp only [decodeOf, hbf, hbs, hp, List.filter_cons, List.filter_append]
    simp only [show ((8 : Nat) != 9 && (8 : Nat) != 10) = true from rfl,
      show ((9 : Nat) != 9 && (9 : Nat) != 10) = false from rfl,
      show ((10 : Nat) != 9 && (10 : Nat) != 10) = false from rfl,
      Bool.false_eq_true, if_false, if_true]
    simp only [List.filter_nil, List.append_nil]
    rw [List.filter_eq_self.mpr]
    intro f hf
    have hh := hall' f hf
    simp only [Bool.and_eq_true, bne_iff_ne]
    exact ⟨hh.2.1, hh.2.2.1⟩
  · rw [get_eq_find]
    simp [decodeOf, List.find?]
  · rw [get_eq_find]
    simp only [decodeOf, hbf]
    rw [List.find?_cons_of_neg _ (by simp), List.find?_cons_of_neg _ (by simp)]
    rw [find?_append_of_none tl _ (List.find?_eq_none.mpr
      (fun f hf => by simp only [beq_iff_eq]; exact (hall' f hf).2.2.1))]
    simp [List.find?]

/-- C1 witness: the round-trip property instantiated at the short benchmark
message. -/
theorem claim_C1_witness :
    validMsgB mShort = true ∧
    (∃ d, getMessage (appendBuffer emptyBuffer mShort.encode) = GetResult.msg d [] ∧
      d.pairs.filter (fun f => f.1 != 9 && f.1 != 10) = mShort.pairs ∧
      d.get 9 = some (natDigits (encodeBody (bodyFields mShort)).length) ∧
      d.get 10 = some (checksum3 (checkValue mShort))) :=
  ⟨by decide, claim_C1 mShort (by decide)⟩

/-- C2: for every encoded message, the decimal value declared in the tag 9
field equals the byte count of the span between the SOH terminating tag
9's field and the start of the tag 10 field — the serialized body fields
with their delimiters, through and including the SOH terminating the last
body field, which is the whole output minus the tag 8, 9 and 10 fields
themselves (spec.md section 4.1 step 2). -/
theorem claim_C2 (m : FixMessage) :
    m.encode = encodeField (8, beginString m) ++
      encodeField (9, natDigits (encodeBody (bodyFields m)).length) ++
      encodeBody (bodyFields m) ++ encodeField (10, checksum3 (checkValue m)) ∧
    parseDigits (natDigits (encodeBody (bodyFields m)).length) =
      some (encodeBody (bodyFields m)).length :=
  ⟨encode_fields_decomposition m, parseDigits_natDigits _⟩

/-- C3: for every encoded message, the tag 10 value is the sum of all bytes
from the first byte of tag 8's field through the SOH after the last body
field, reduced modulo 256, formatted as exactly three zero-padded decimal
digits in 000-255; the wrap-around cases (sum congruent to 0 and to 255
modulo 256) are exhibited by the two concrete wrap messages. -/
theorem claim_C3 (m : FixMessage) :
    m.encode = encodeFront m ++ 49 :: 48 :: 61 ::
      (checksum3 ((encodeFront m).sum % 256) ++ [1]) ∧
    (checksum3 (checkValue m)).length = 3 ∧
    (∀ b ∈ checksum3 (checkValue m), 48 ≤ b ∧ b ≤ 57) ∧
    parseDigits (checksum3 (checkValue m)) = some (checkValue m) ∧
    checkValue m < 256 ∧
    checkValue mWrapZero = 0 ∧ checkValue mWrapMax = 255 := by
  have hC : checkValue m < 256 := by
    unfold checkValue; exact Nat.mod_lt _ (by omega)
  exact ⟨rfl, rfl, checksum3_digits _ hC, parseDigits_checksum3 _ hC, hC,
    by decide, by decide⟩

/-- C4: every encoded message emits the tag 8 field first, the tag 9 field
second, the body fields in insertion order, and the tag 10 field last; for
the concrete short benchmark message the output begins with
`8=FIX.4.2` SOH `9=55` SOH, ends with `10=058` SOH, and feeding it to a
fresh parser recovers a message whose tag 35 value is the byte of "0". -/
theorem claim_C4 :
    (∀ m : FixMessage, m.encode =
      encodeField (8, beginString m) ++
      encodeField (9, natDigits (encodeBody (bodyFields m)).length) ++
      encodeBody (bodyFields m) ++ encodeField (10, checksum3 (checkValue m))) ∧
    mShort.encode.take 15 = [56, 61, 70, 73, 88, 46, 52, 46, 50, 1, 57, 61, 53, 53, 1] ∧
    mShort.encode.drop 70 = [49, 48, 61, 48, 53, 56, 1] ∧
    getMessage (appendBuffer emptyBuffer mShort.encode) =
      GetResult.msg (decodeOf mShort) [] ∧
    (decodeOf mShort).get 35 = some [48] :=
  ⟨encode_fields_decomposition, by decide, by decide, by decide, by decide⟩

/-- C5: splitting a valid encoded message into any partition of
`append_buffer` calls yields the same `get_message` result as a single
append of the whole stream, namely the decoded message with an empty
remaining buffer. -/
theorem claim_C5 (m : FixMessage) (hm : validMsgB m = true)
    (chunks : List (List Nat)) (hc : chunks.flatten = m.encode) :
    getMessage (List.foldl appendBuffer emptyBuffer chunks) =
      getMessage (appendBuffer emptyBuffer m.encode) ∧
    getMessage (appendBuffer emptyBuffer m.encode) = GetResult.msg (decodeOf m) [] := by
  have hg : getMessage (appendBuffer emptyBuffer m.encode) =
      GetResult.msg (decodeOf m) [] := by
    have hge := getMessage_encode_append m hm []
    rw [List.append_nil] at hge
    simpa [appendBuffer, emptyBuffer] using hge
  refine ⟨?_, hg⟩
  rw [foldl_appendBuffer chunks emptyBuffer, hc]
  simp [appendBuffer, emptyBuffer]

/-- C5 witness: byte-by-byte streaming of the short benchmark message
agrees with whole-message streaming. -/
theorem claim_C5_witness :
    (validMsgB mShort = true ∧ (singletonChunks mShort.encode).flatten = mShort.encode) ∧
    (getMessage (List.foldl appendBuffer emptyBuffer (singletonChunks mShort.encode)) =
        getMessage (appendBuffer emptyBuffer mShort.encode) ∧
      getMessage (appendBuffer emptyBuffer mShort.encode) =
        GetResult.msg (decodeOf mShort) []) :=
  ⟨⟨by decide, by decide⟩,
    claim_C5 mShort (by decide) (singletonChunks mShort.encode) (by decide)⟩

/-- C6: concatenating N valid encoded messages into one buffer yields N
successive successful `get_message` calls returning the N messages in
order, each call consuming its message's bytes and retaining the
trailing ones, after which the buffer is empty and the next call reports
the absent "incomplete" result. -/
theorem claim_C6 (ms : List FixMessage) (hv : ∀ m ∈ ms, validMsgB m = true)
    (hN : 1 ≤ ms.length) :
    drainAll ms.length ((ms.map FixMessage.encode).flatten) = (ms.map decodeOf, []) ∧
    getMessage (drainAll ms.length ((ms.map FixMessage.encode).flatten)).2 =
      GetResult.incomplete := by
  have h1 := drainAll_encode ms hv
  exact ⟨h1, by rw [h1]; rfl⟩

/-- C6 witness: the two-message stream of the short benchmark message
followed by the heartbeat message drains into exactly those two messages
and then reports incomplete. -/
theorem claim_C6_witness :
    ((∀ m ∈ [mShort, mHeartbeat], validMsgB m = true) ∧
      1 ≤ ([mShort, mHeartbeat] : List FixMessage).length) ∧
    (drainAll ([mShort, mHeartbeat] : List FixMessage).length
        (([mShort, mHeartbeat].map FixMessage.encode).flatten) =
      ([mShort, mHeartbeat].map decodeOf, []) ∧
      getMessage (drainAll ([mShort, mHeartbeat] : List FixMessage).length
        (([mShort, mHeartbeat].map FixMessage.encode).flatten)).2 =
      GetResult.incomplete) :=
  ⟨⟨by decide, by decide⟩, claim_C6 [mShort, mHeartbeat] (by decide) (by decide)⟩

/-- C7: the buffer `8=FIX.4.2` SOH `9=abc` SOH (non-numeric BodyLength)
makes `get_message` report the distinct malformed result — not incomplete
and not a message — and the parser recovers: after `reset()` the buffer is
empty and a subsequent valid message parses, and discarding the malformed
prefix likewise lets the following valid message parse. -/
theorem claim_C7 :
    getMessage badInput = GetResult.malformed ∧
    resetParser badInput = emptyBuffer ∧
    getMessage (appendBuffer (resetParser badInput) mShort.encode) =
      GetResult.msg (decodeOf mShort) [] ∧
    getMessage ((appendBuffer badInput mShort.encode).drop badInput.length) =
      GetResult.msg (decodeOf mShort) [] :=
  ⟨by decide, rfl, by decide, by decide⟩

/-- C8: `get(tag)` returns the value of the first field with the given tag
in insertion order (also when the tag repeats), and the absent result
exactly when no field carries the tag. -/
theorem claim_C8 (m : FixMessage) (t : Nat) :
    m.get t = (m.pairs.find? (fun f => f.1 == t)).map (fun f => f.2) ∧
    (m.get t = none ↔ ∀ f ∈ m.pairs, f.1 ≠ t) := by
  refine ⟨get_eq_find m t, ?_⟩
  rw [get_eq_find m t]
  simp [List.find?_eq_none]

/-- C9: over every directory tree, the set of relative paths packed by
create_knowledge_base equals the set computed by verify_kb's
get_repo_files, so verifying a tree against the XML generated from it
yields empty missing and extra sets. -/
theorem claim_C9 (t : List FSEntry) :
    createPackedFiles t = verifyRepoFiles t ∧
    setDiff (verifyRepoFiles t) (createPackedFiles t) = [] ∧
    setDiff (createPackedFiles t) (verifyRepoFiles t) = [] := by
  have h := createPackedFiles_eq t
  exact ⟨h, by rw [h]; exact setDiff_self _, by rw [h]; exact setDiff_self _⟩

/-- C10 counterexample: the claim quantifies over every iterations count,
but at iterations = 0 (with the non-negative duration 0) the latency
computation divides by the zero iterations count, so the benchmark
computations are not division-safe as stated. -/
theorem claim_C10_counterexample :
    (0 : ℚ) ≤ 0 ∧ parserBenchStats 0 0 = none ∧ builderBenchStats 0 0 = none := by
  refine ⟨le_refl 0, ?_, ?_⟩ <;>
    · simp only [parserBenchStats, builderBenchStats, pyDiv, Nat.cast_zero]
      norm_num

/-- C10 (amended): in run_parser_benchmark and run_builder_benchmark a
measured duration equal to zero is replaced by 0.000001 before being used
as a divisor, so for every iterations count of at least 1 and every
non-negative measured duration the messages-per-second and latency
computations never divide by zero. -/
theorem claim_C10_amended (its : Nat) (d : ℚ) (h1 : 1 ≤ its) (h2 : 0 ≤ d) :
    (if d = 0 then (1 : ℚ) / 1000000 else d) ≠ 0 ∧
    (parserBenchStats its d).isSome = true ∧
    (builderBenchStats its d).isSome = true := by
  have hd : (if d = 0 then (1 : ℚ) / 1000000 else d) ≠ 0 := by
    by_cases hz : d = 0
    · rw [if_pos hz]; norm_num
    · rw [if_neg hz]; exact hz
  have hits : ((its : ℚ)) ≠ 0 := Nat.cast_ne_zero.mpr (by omega)
  have hd' : (if d = 0 then (1000000 : ℚ)⁻¹ else d) ≠ 0 := by
    rw [show (1000000 : ℚ)⁻¹ = 1 / 1000000 from (one_div (1000000 : ℚ)).symm]
    exact hd
  refine ⟨hd, ?_, ?_⟩ <;>
    simp [parserBenchStats, builderBenchStats, pyDiv, hd, hd', hits]

/-- C10 witness: the amended guarantee instantiated at the benchmark's own
iteration count 200000 with a zero measured duration. -/
theorem claim_C10_amended_witness :
    (1 ≤ 200000 ∧ (0 : ℚ) ≤ 0) ∧
    ((if (0 : ℚ) = 0 then (1 : ℚ) / 1000000 else 0) ≠ 0 ∧
      (parserBenchStats 200000 0).isSome = true ∧
      (builderBenchStats 200000 0).isSome = true) :=
  ⟨⟨by decide, by decide⟩, claim_C10_amended 200000 0 (by decide) (by decide)⟩
